import Mathlib

/-!
Verification development for the Sigma value-type module (`sigma/types.py`):
wildcarded strings (escape-aware tokenizer, token-sequence operations,
configurable serializer), regular-expression delimiter escaping, and numeric
normalization.  Python strings are modelled as `List Char`, the token tuple
`SigmaString.s` as a `List SigmaElem`, and raised exceptions as `Except`
values.
-/

/-- The two supported special characters (enumeration `SpecialChars`). -/
inductive SpecialChars where
  | wildcard_multi : SpecialChars
  | wildcard_single : SpecialChars
deriving DecidableEq, Repr

/-- The fixed escape character (module constant `escape_char = "\\"`). -/
def escape_char : Char := '\\'

/-- The fixed designator alphabet (module constant `char_mapping`):
`'*'` maps to the multi-character wildcard and `'?'` to the single-character
wildcard; every other character has no special meaning. -/
def char_mapping (c : Char) : Option SpecialChars :=
  if c = '*' then some SpecialChars.wildcard_multi
  else if c = '?' then some SpecialChars.wildcard_single
  else none

/-- One element of the tuple `SigmaString.s`: a plain-string part (a literal
run) or a special character (a wildcard marker). -/
inductive SigmaElem where
  | lit : List Char → SigmaElem
  | special : SpecialChars → SigmaElem
deriving DecidableEq, Repr

/-- Error values raised by the module.  `sigmaValueError` models
`SigmaValueError`; `typeMismatchError` models the `NotImplementedError`
raised on comparison with an unsupported operand type (the spec's
TypeMismatch kind). -/
inductive SigmaError where
  | sigmaValueError : String → SigmaError
  | typeMismatchError : String → SigmaError
deriving DecidableEq, Repr

/-- One iteration of the parsing loop in `SigmaString.__init__`: the state is
the result list `r`, the accumulation buffer `acc` and the escape flag. -/
def tokStep (st : List SigmaElem × List Char × Bool) (c : Char) :
    List SigmaElem × List Char × Bool :=
  let (r, acc, escaped) := st
  if escaped then
    if (char_mapping c).isSome ∨ c = escape_char then (r, acc ++ [c], false)
    else (r, acc ++ [escape_char, c], false)
  else if c = escape_char then (r, acc, true)
  else
    match char_mapping c with
    | some sc =>
        (r ++ (if acc = [] then [] else [SigmaElem.lit acc]) ++ [SigmaElem.special sc],
         [], false)
    | none => (r, acc ++ [c], escaped)

/-- The post-loop finalization of `SigmaString.__init__`: a pending escape
character is appended to the buffer, and a non-empty buffer is appended to
the result as a final literal run. -/
def tokFinish (st : List SigmaElem × List Char × Bool) : List SigmaElem :=
  let (r, acc, escaped) := st
  let acc2 := if escaped then acc ++ [escape_char] else acc
  if acc2 = [] then r else r ++ [SigmaElem.lit acc2]

/-- The tokenizer `SigmaString.__init__`: the Python `for` loop is a left
fold of `tokStep` over the characters, followed by `tokFinish`. -/
def tokenize (s : List Char) : List SigmaElem :=
  tokFinish (s.foldl tokStep ([], [], false))

/-- Final-flush step of the spec's two-state scan (identical text to the
source's finalization, stated on a buffer and flag alone). -/
def flushFinal (acc : List Char) (escaped : Bool) : List SigmaElem :=
  let acc2 := if escaped then acc ++ [escape_char] else acc
  if acc2 = [] then [] else [SigmaElem.lit acc2]

/-- The spec's Moore-style two-state scan (section 4.2), written as a
structural recursion emitting tokens in order: state is the pending buffer
and the escape flag. -/
def tokenizeSpecAux : List Char → Bool → List Char → List SigmaElem
  | acc, escaped, [] => flushFinal acc escaped
  | acc, true, c :: cs =>
      if (char_mapping c).isSome ∨ c = escape_char then
        tokenizeSpecAux (acc ++ [c]) false cs
      else
        tokenizeSpecAux (acc ++ [escape_char, c]) false cs
  | acc, false, c :: cs =>
      if c = escape_char then tokenizeSpecAux acc true cs
      else
        match char_mapping c with
        | some sc =>
            (if acc = [] then [] else [SigmaElem.lit acc]) ++
              SigmaElem.special sc :: tokenizeSpecAux [] false cs
        | none => tokenizeSpecAux (acc ++ [c]) false cs

/-- Entry point of the spec's scan: empty buffer, escape flag clear. -/
def tokenizeSpec (s : List Char) : List SigmaElem :=
  tokenizeSpecAux [] false s

theorem tokenizeFrom_eq (cs : List Char) :
    ∀ (r : List SigmaElem) (acc : List Char) (escaped : Bool),
      tokFinish (cs.foldl tokStep (r, acc, escaped)) =
        r ++ tokenizeSpecAux acc escaped cs := by
  induction cs with
  | nil =>
      intro r acc escaped
      simp only [List.foldl_nil, tokFinish, tokenizeSpecAux, flushFinal]
      by_cases h : (if escaped then acc ++ [escape_char] else acc) = []
      · simp [h]
      · simp [h]
  | cons c cs ih =>
      intro r acc escaped
      simp only [List.foldl_cons]
      cases escaped with
      | true =>
          by_cases h : (char_mapping c).isSome ∨ c = escape_char
          · simp only [tokStep, h, if_true, if_pos]
            rw [ih]
            simp [tokenizeSpecAux, h]
          · simp only [tokStep, h, if_false, if_neg]
            rw [ih]
            simp [tokenizeSpecAux, h]
      | false =>
          by_cases hesc : c = escape_char
          · simp only [tokStep, hesc, if_pos rfl]
            have hnone : char_mapping escape_char = none := by decide
            rw [ih]
            simp [tokenizeSpecAux]
          · cases hmap : char_mapping c with
            | some sc =>
                simp only [tokStep, hmap, if_neg hesc]
                rw [ih]
                simp only [tokenizeSpecAux, if_neg hesc, hmap]
                by_cases hacc : acc = [] <;> simp [hacc]
            | none =>
                simp only [tokStep, hmap, if_neg hesc]
                rw [ih]
                simp [tokenizeSpecAux, if_neg hesc, hmap]

theorem tokenize_eq_tokenizeSpec (s : List Char) : tokenize s = tokenizeSpec s := by
  have h := tokenizeFrom_eq s [] [] false
  simpa [tokenize, tokenizeSpec] using h

/-- Concatenation `SigmaString.__add__` with another `SigmaString`: the token
tuples are concatenated. -/
def addSigma (a b : List SigmaElem) : List SigmaElem :=
  a ++ b

/-- Concatenation `SigmaString.__add__` with a bare `str`: the raw string is
appended to the tuple as one (unparsed) element. -/
def addStr (a : List SigmaElem) (t : List Char) : List SigmaElem :=
  a ++ [SigmaElem.lit t]

/-- Concatenation `SigmaString.__add__` with a bare `SpecialChars` token. -/
def addSpecial (a : List SigmaElem) (sc : SpecialChars) : List SigmaElem :=
  a ++ [SigmaElem.special sc]

/-- Concatenation `SigmaString.__radd__` with a bare `str` on the left. -/
def raddStr (t : List Char) (a : List SigmaElem) : List SigmaElem :=
  SigmaElem.lit t :: a

/-- Concatenation `SigmaString.__radd__` with a bare token on the left. -/
def raddSpecial (sc : SpecialChars) (a : List SigmaElem) : List SigmaElem :=
  SigmaElem.special sc :: a

/-- The operand of `SigmaString.__eq__`: a raw string, another `SigmaString`,
or any unsupported value. -/
inductive CompareOperand where
  | ofStr : List Char → CompareOperand
  | ofSigma : List SigmaElem → CompareOperand
  | unsupported : CompareOperand

/-- Equality test `SigmaString.__eq__`: a raw string is tokenized first,
another `SigmaString` is compared tuple-wise, and any other operand raises
(`NotImplementedError` in the source, the spec's TypeMismatch kind). -/
def sigmaStringEq (ws : List SigmaElem) : CompareOperand → Except SigmaError Bool
  | CompareOperand.ofStr t => Except.ok (decide (ws = tokenize t))
  | CompareOperand.ofSigma w2 => Except.ok (decide (ws = w2))
  | CompareOperand.unsupported =>
      Except.error (SigmaError.typeMismatchError
        "SigmaString can only be compared with a string or another SigmaString")

/-- The argument of `startswith`/`endswith` (`Union[str, SpecialChars]`). -/
inductive StrOrSpecial where
  | ofStr : List Char → StrOrSpecial
  | ofSpecial : SpecialChars → StrOrSpecial

/-- Prefix test `SigmaString.startswith`: reads `self.s[0]` (an `IndexError`,
modelled as `none`, when the tuple is empty), returns `False` when the kinds
differ, delegates to string `startswith` when both are strings, and compares
the markers when both are special characters. -/
def startswith (ws : List SigmaElem) (val : StrOrSpecial) : Option Bool :=
  match ws with
  | [] => none
  | c :: _ =>
      some (match c, val with
        | SigmaElem.lit s, StrOrSpecial.ofStr v => v.isPrefixOf s
        | SigmaElem.special sc, StrOrSpecial.ofSpecial v => decide (sc = v)
        | _, _ => false)

/-- Suffix test `SigmaString.endswith`: reads `self.s[-1]` (an `IndexError`,
modelled as `none`, when the tuple is empty), returns `False` when the kinds
differ, delegates to string `endswith` when both are strings, and compares
the markers when both are special characters. -/
def endswith (ws : List SigmaElem) (val : StrOrSpecial) : Option Bool :=
  match ws.getLast? with
  | none => none
  | some c =>
      some (match c, val with
        | SigmaElem.lit s, StrOrSpecial.ofStr v => v.isSuffixOf s
        | SigmaElem.special sc, StrOrSpecial.ofSpecial v => decide (sc = v)
        | _, _ => false)

/-- Wildcard detection `SigmaString.contains_special`. -/
def contains_special (ws : List SigmaElem) : Bool :=
  ws.any (fun e => match e with
    | SigmaElem.lit _ => false
    | SigmaElem.special _ => true)

/-- One atomic unit yielded by `SigmaString.__iter__`: a single character of
a literal run, or a wildcard marker. -/
inductive SAtom where
  | ch : Char → SAtom
  | special : SpecialChars → SAtom
deriving DecidableEq, Repr

/-- Atomic iteration `SigmaString.__iter__`: literal runs yield their
characters one at a time, wildcard markers yield themselves. -/
def atomicUnits (ws : List SigmaElem) : List SAtom :=
  ws.flatMap (fun e => match e with
    | SigmaElem.lit s => s.map SAtom.ch
    | SigmaElem.special sc => [SAtom.special sc])

/-- The parameters of `SigmaString.convert`.  The source's `escape_char`
parameter is a string used verbatim as the escape prefix; `wildcard_multi`
and `wildcard_single` are optional (i.e. may be `None`) representation
strings; `add_escaped` and `filter_chars` are character strings used as
sets. -/
structure ConvertCfg where
  escChar : List Char
  wildcard_multi : Option (List Char)
  wildcard_single : Option (List Char)
  add_escaped : List Char
  filter_chars : List Char

/-- The default parameter values of `SigmaString.convert`. -/
def defaultCfg : ConvertCfg :=
  { escChar := ['\\'], wildcard_multi := some ['*'],
    wildcard_single := some ['?'], add_escaped := [], filter_chars := [] }

/-- The set `escaped_chars = frozenset((wildcard_multi or "") +
(wildcard_single or "") + add_escaped)` of `convert`, as a character list
used for membership only.  Python's `or` turns both `None` and the empty
string into `""`; both give the same empty contribution here. -/
def escapedChars (cfg : ConvertCfg) : List Char :=
  cfg.wildcard_multi.getD [] ++ cfg.wildcard_single.getD [] ++ cfg.add_escaped

/-- The representation string `convert` uses for a wildcard kind. -/
def wildcardRepr (cfg : ConvertCfg) : SpecialChars → Option (List Char)
  | SpecialChars.wildcard_multi => cfg.wildcard_multi
  | SpecialChars.wildcard_single => cfg.wildcard_single

/-- The `SigmaValueError` raised by `convert` for a wildcard kind with no
configured representation. -/
def wildcardErr : SpecialChars → SigmaError
  | SpecialChars.wildcard_multi =>
      SigmaError.sigmaValueError "Multi-character wildcard not specified for conversion"
  | SpecialChars.wildcard_single =>
      SigmaError.sigmaValueError "Single-character wildcard not specified for conversion"

/-- One iteration of the loop of `SigmaString.convert` over an atomic unit:
filtered characters are skipped, characters of `escaped_chars` are prefixed
with the escape string, wildcards emit their representation or raise. -/
def convStep (cfg : ConvertCfg) (acc : Except SigmaError (List Char)) (a : SAtom) :
    Except SigmaError (List Char) :=
  acc.bind (fun s =>
    match a with
    | SAtom.ch c =>
        if c ∈ cfg.filter_chars then Except.ok s
        else if c ∈ escapedChars cfg then Except.ok (s ++ cfg.escChar ++ [c])
        else Except.ok (s ++ [c])
    | SAtom.special sc =>
        match wildcardRepr cfg sc with
        | some w => Except.ok (s ++ w)
        | none => Except.error (wildcardErr sc))

/-- The serializer `SigmaString.convert`: the Python `for` loop over
`self.__iter__()` with an accumulated output string, an exception modelled
as an `Except.error` state. -/
def convert (ws : List SigmaElem) (cfg : ConvertCfg) : Except SigmaError (List Char) :=
  (atomicUnits ws).foldl (convStep cfg) (Except.ok [])

/-- Emission of one atomic unit, written from the spec's serializer
description (section 4.4): a filtered literal character emits nothing, a
character of the escaped set emits the escape string then the character, any
other literal character is emitted unchanged; a wildcard emits its
configured representation or fails immediately. -/
def emitAtom (cfg : ConvertCfg) : SAtom → Except SigmaError (List Char)
  | SAtom.ch c =>
      if c ∈ cfg.filter_chars then Except.ok []
      else if c ∈ escapedChars cfg then Except.ok (cfg.escChar ++ [c])
      else Except.ok [c]
  | SAtom.special sc =>
      match wildcardRepr cfg sc with
      | some w => Except.ok w
      | none => Except.error (wildcardErr sc)

/-- The spec's serializer as a structural recursion over atomic units:
concatenation of the per-unit emissions, failing at the first failing
unit. -/
def specConvertAux (cfg : ConvertCfg) : List SAtom → Except SigmaError (List Char)
  | [] => Except.ok []
  | a :: rest =>
      (emitAtom cfg a).bind (fun e => (specConvertAux cfg rest).map (fun t => e ++ t))

/-- The spec's serializer over a whole wildcarded string. -/
def specConvert (ws : List SigmaElem) (cfg : ConvertCfg) : Except SigmaError (List Char) :=
  specConvertAux cfg (atomicUnits ws)

theorem convStep_foldl_error (cfg : ConvertCfg) (atoms : List SAtom) (e : SigmaError) :
    atoms.foldl (convStep cfg) (Except.error e) = Except.error e := by
  induction atoms with
  | nil => rfl
  | cons a rest ih => simpa [convStep, Except.bind] using ih

theorem convStep_foldl_ok (cfg : ConvertCfg) (atoms : List SAtom) :
    ∀ pre : List Char,
      atoms.foldl (convStep cfg) (Except.ok pre) =
        (specConvertAux cfg atoms).map (fun t => pre ++ t) := by
  induction atoms with
  | nil => intro pre; simp [specConvertAux, Except.map]
  | cons a rest ih =>
      intro pre
      cases a with
      | ch c =>
          by_cases hf : c ∈ cfg.filter_chars
          · simp only [List.foldl_cons, convStep, Except.bind, hf, if_pos,
              specConvertAux, emitAtom]
            rw [ih]
            cases h : specConvertAux cfg rest with
            | error e => simp [Except.map, Except.bind]
            | ok v => simp [Except.map, Except.bind]
          · by_cases he : c ∈ escapedChars cfg
            · simp only [List.foldl_cons, convStep, Except.bind, hf, he, if_neg,
                if_pos, if_false, specConvertAux, emitAtom]
              rw [ih]
              cases h : specConvertAux cfg rest with
              | error e => simp [Except.map, Except.bind]
              | ok v => simp [Except.map, Except.bind]
            · simp only [List.foldl_cons, convStep, Except.bind, hf, he, if_neg,
                if_false, specConvertAux, emitAtom]
              rw [ih]
              cases h : specConvertAux cfg rest with
              | error e => simp [Except.map, Except.bind]
              | ok v => simp [Except.map, Except.bind]
      | special sc =>
          cases hw : wildcardRepr cfg sc with
          | some w =>
              simp only [List.foldl_cons, convStep, Except.bind, hw,
                specConvertAux, emitAtom]
              rw [ih]
              cases h : specConvertAux cfg rest with
              | error e => simp [Except.map, Except.bind]
              | ok v => simp [Except.map, Except.bind]
          | none =>
              simp only [List.foldl_cons, convStep, Except.bind, hw,
                specConvertAux, emitAtom]
              rw [convStep_foldl_error]
              cases h : specConvertAux cfg rest with
              | error e => simp [Except.map, Except.bind]
              | ok v => simp [Except.map, Except.bind]

theorem convert_eq_specConvert (ws : List SigmaElem) (cfg : ConvertCfg) :
    convert ws cfg = specConvert ws cfg := by
  unfold convert specConvert
  rw [convStep_foldl_ok]
  cases h : specConvertAux cfg (atomicUnits ws) with
  | error e => simp [Except.map]
  | ok v => simp [Except.map]

/-- The error of the first atomic unit at which `convert` raises: the first
wildcard unit whose representation is unset, `none` when every unit
converts. -/
def firstConvErr (cfg : ConvertCfg) : List SAtom → Option SigmaError
  | [] => none
  | SAtom.ch _ :: rest => firstConvErr cfg rest
  | SAtom.special sc :: rest =>
      if (wildcardRepr cfg sc).isNone then some (wildcardErr sc)
      else firstConvErr cfg rest

theorem specConvertAux_error_iff (cfg : ConvertCfg) (atoms : List SAtom) :
    ∀ e, specConvertAux cfg atoms = Except.error e ↔ firstConvErr cfg atoms = some e := by
  induction atoms with
  | nil => intro e; simp [specConvertAux, firstConvErr]
  | cons a rest ih =>
      intro e
      cases a with
      | ch c =>
          simp only [specConvertAux, emitAtom, firstConvErr]
          by_cases hf : c ∈ cfg.filter_chars
          · simp only [hf, if_pos]
            cases h : specConvertAux cfg rest with
            | error e2 => simpa [Except.bind, Except.map, h] using ih e
            | ok v =>
                have := ih e
                rw [h] at this
                simpa [Except.bind, Except.map, h] using this
          · by_cases he : c ∈ escapedChars cfg
            · simp only [hf, he, if_neg, if_pos, if_false]
              cases h : specConvertAux cfg rest with
              | error e2 => simpa [Except.bind, Except.map, h] using ih e
              | ok v =>
                  have := ih e
                  rw [h] at this
                  simpa [Except.bind, Except.map, h] using this
            · simp only [hf, he, if_neg, if_false]
              cases h : specConvertAux cfg rest with
              | error e2 => simpa [Except.bind, Except.map, h] using ih e
              | ok v =>
                  have := ih e
                  rw [h] at this
                  simpa [Except.bind, Except.map, h] using this
      | special sc =>
          simp only [specConvertAux, emitAtom, firstConvErr]
          cases hw : wildcardRepr cfg sc with
          | some w =>
              simp only [hw, Option.isNone_some, Bool.false_eq_true, if_false]
              cases h : specConvertAux cfg rest with
              | error e2 => simpa [Except.bind, Except.map, h] using ih e
              | ok v =>
                  have := ih e
                  rw [h] at this
                  simpa [Except.bind, Except.map, h] using this
          | none =>
              simp [hw, Except.bind, eq_comm]

theorem firstConvErr_none_iff (cfg : ConvertCfg) (atoms : List SAtom) :
    firstConvErr cfg atoms = none ↔
      ¬(cfg.wildcard_multi = none ∧ SAtom.special SpecialChars.wildcard_multi ∈ atoms) ∧
      ¬(cfg.wildcard_single = none ∧ SAtom.special SpecialChars.wildcard_single ∈ atoms) := by
  induction atoms with
  | nil => simp [firstConvErr]
  | cons a rest ih =>
      cases a with
      | ch c => simpa [firstConvErr] using ih
      | special sc =>
          cases hw : wildcardRepr cfg sc with
          | some w =>
              cases sc <;>
                simp_all [firstConvErr, wildcardRepr, Option.isNone]
          | none =>
              cases sc <;>
                simp_all [firstConvErr, wildcardRepr, Option.isNone]

theorem special_mem_atomicUnits (ws : List SigmaElem) (sc : SpecialChars) :
    SAtom.special sc ∈ atomicUnits ws ↔ SigmaElem.special sc ∈ ws := by
  induction ws with
  | nil => simp [atomicUnits]
  | cons e rest ih =>
      cases e with
      | lit s =>
          simp only [atomicUnits, List.flatMap_cons, List.mem_append] at *
          constructor
          · intro h
            rcases h with h | h
            · exact absurd h (by simp)
            · exact List.mem_cons_of_mem _ (ih.mp h)
          · intro h
            rcases List.mem_cons.mp h with h | h
            · exact absurd h (by simp)
            · exact Or.inr (ih.mpr h)
      | special sc2 =>
          simp only [atomicUnits, List.flatMap_cons, List.mem_append] at *
          constructor
          · intro h
            rcases h with h | h
            · simp only [List.mem_singleton, SAtom.special.injEq] at h
              simp [h]
            · exact List.mem_cons_of_mem _ (ih.mp h)
          · intro h
            rcases List.mem_cons.mp h with h | h
            · simp only [SigmaElem.special.injEq] at h
              simp [h]
            · exact Or.inr (ih.mpr h)

/-- C1: the tokenizer follows the specified left-to-right two-state scan
(escaped designator or escape character appended as a single literal
character, escape before any other character preserved verbatim, unescaped
designator flushing the buffer and appending a wildcard token, trailing
unmatched escape appended literally), so in particular
`tokenize "a\*b" = [Lit "a*b"]`, `tokenize "a\" = [Lit "a\"]` and
`tokenize "a\qb" = [Lit "a\qb"]`. -/
theorem tokenize_follows_spec_scan :
    (∀ s : List Char, tokenize s = tokenizeSpec s) ∧
    tokenize ['a', '\\', '*', 'b'] = [SigmaElem.lit ['a', '*', 'b']] ∧
    tokenize ['a', '\\'] = [SigmaElem.lit ['a', '\\']] ∧
    tokenize ['a', '\\', 'q', 'b'] = [SigmaElem.lit ['a', '\\', 'q', 'b']] ∧
    tokenize ['a', '*', 'b'] =
      [SigmaElem.lit ['a'], SigmaElem.special SpecialChars.wildcard_multi,
        SigmaElem.lit ['b']] := by
  refine ⟨tokenize_eq_tokenizeSpec, by decide, by decide, by decide, by decide⟩

/-- C4: `convert` walks the atomic units in order and, for each literal
character, emits nothing when it is filtered, the escape string followed by
the character when it belongs to the union of the wildcard representations
and the additional escaped characters, and the character unchanged
otherwise: the loop equals the spec's per-unit emission serializer. -/
theorem convert_emits_per_spec :
    (∀ (ws : List SigmaElem) (cfg : ConvertCfg), convert ws cfg = specConvert ws cfg) ∧
    (∀ (cfg : ConvertCfg) (c : Char), c ∈ cfg.filter_chars →
        emitAtom cfg (SAtom.ch c) = Except.ok []) ∧
    (∀ (cfg : ConvertCfg) (c : Char), c ∉ cfg.filter_chars → c ∈ escapedChars cfg →
        emitAtom cfg (SAtom.ch c) = Except.ok (cfg.escChar ++ [c])) ∧
    (∀ (cfg : ConvertCfg) (c : Char), c ∉ cfg.filter_chars → c ∉ escapedChars cfg →
        emitAtom cfg (SAtom.ch c) = Except.ok [c]) := by
  refine ⟨convert_eq_specConvert, ?_, ?_, ?_⟩
  · intro cfg c h
    simp [emitAtom, h]
  · intro cfg c h1 h2
    simp [emitAtom, h1, h2]
  · intro cfg c h1 h2
    simp [emitAtom, h1, h2]

/-- C5: `convert` fails exactly when the value contains a Multi wildcard
token while the multi representation is unset, or a Single wildcard token
while the single representation is unset; the raised error is the one of the
first offending wildcard unit reached, and in every other case a string is
returned. -/
theorem convert_fails_iff_unset_wildcard :
    ∀ (ws : List SigmaElem) (cfg : ConvertCfg),
      ((∃ s, convert ws cfg = Except.ok s) ↔
        ¬(cfg.wildcard_multi = none ∧
            SigmaElem.special SpecialChars.wildcard_multi ∈ ws) ∧
        ¬(cfg.wildcard_single = none ∧
            SigmaElem.special SpecialChars.wildcard_single ∈ ws)) ∧
      ∀ e, convert ws cfg = Except.error e ↔
        firstConvErr cfg (atomicUnits ws) = some e := by
  intro ws cfg
  have herr : ∀ e, convert ws cfg = Except.error e ↔
      firstConvErr cfg (atomicUnits ws) = some e := by
    intro e
    rw [convert_eq_specConvert]
    exact specConvertAux_error_iff cfg (atomicUnits ws) e
  refine ⟨?_, herr⟩
  have hnone : (∃ s, convert ws cfg = Except.ok s) ↔
      firstConvErr cfg (atomicUnits ws) = none := by
    cases h : convert ws cfg with
    | ok v =>
        constructor
        · intro _
          cases hf : firstConvErr cfg (atomicUnits ws) with
          | none => rfl
          | some e =>
              have h2 := (herr e).mpr hf
              rw [h] at h2
              simp at h2
        · intro _
          exact ⟨v, rfl⟩
    | error e =>
        constructor
        · rintro ⟨s, hs⟩
          simp at hs
        · intro hf
          have h2 := (herr e).mp h
          rw [hf] at h2
          simp at h2
  rw [hnone, firstConvErr_none_iff]
  simp only [special_mem_atomicUnits]

/-- C6: `startswith` (resp. `endswith`) examines only the first (resp. last)
token: it returns `False` whenever the query's kind differs from that
boundary token's kind, the string prefix (resp. suffix) test on the single
boundary token when both are literal text, and kind equality when both are
wildcard markers. -/
theorem startswith_endswith_boundary :
    ∀ (s q : List Char) (sc v : SpecialChars) (tl ws : List SigmaElem),
      startswith (SigmaElem.lit s :: tl) (StrOrSpecial.ofStr q) =
          some (q.isPrefixOf s) ∧
      startswith (SigmaElem.lit s :: tl) (StrOrSpecial.ofSpecial sc) = some false ∧
      startswith (SigmaElem.special sc :: tl) (StrOrSpecial.ofStr q) = some false ∧
      startswith (SigmaElem.special sc :: tl) (StrOrSpecial.ofSpecial v) =
          some (decide (sc = v)) ∧
      endswith (ws ++ [SigmaElem.lit s]) (StrOrSpecial.ofStr q) =
          some (q.isSuffixOf s) ∧
      endswith (ws ++ [SigmaElem.lit s]) (StrOrSpecial.ofSpecial sc) = some false ∧
      endswith (ws ++ [SigmaElem.special sc]) (StrOrSpecial.ofStr q) = some false ∧
      endswith (ws ++ [SigmaElem.special sc]) (StrOrSpecial.ofSpecial v) =
          some (decide (sc = v)) := by
  intro s q sc v tl ws
  refine ⟨rfl, rfl, rfl, rfl, ?_, ?_, ?_, ?_⟩ <;>
    simp [endswith, List.getLast?_concat]

/-- C9: testing equality of a `SigmaString` against an operand that is
neither a raw string nor another `SigmaString` raises the TypeMismatch-kind
failure (the source's `NotImplementedError`) instead of returning a
boolean. -/
theorem sigmaStringEq_unsupported_raises :
    ∀ ws : List SigmaElem,
      sigmaStringEq ws CompareOperand.unsupported =
        Except.error (SigmaError.typeMismatchError
          "SigmaString can only be compared with a string or another SigmaString") :=
  fun _ => rfl

/-- C10: on a `SigmaString` whose token sequence is empty — as produced by
tokenizing the empty string — `startswith` and `endswith` hit an
out-of-bounds boundary-token access (modelled as `none`) instead of
returning a boolean. -/
theorem startswith_endswith_empty_index_error :
    tokenize [] = [] ∧
    (∀ val, startswith (tokenize []) val = none) ∧
    (∀ val, endswith (tokenize []) val = none) ∧
    (∀ val, startswith [] val = none) ∧
    (∀ val, endswith [] val = none) :=
  ⟨rfl, fun _ => rfl, fun _ => rfl, fun _ => rfl, fun _ => rfl⟩

/-- Non-emptiness of every literal run of a token sequence (the spec's
`LiteralRun` invariant). -/
def litsNonempty (ws : List SigmaElem) : Bool :=
  ws.all (fun e => match e with
    | SigmaElem.lit s => !s.isEmpty
    | SigmaElem.special _ => true)

theorem litsNonempty_tokenizeSpecAux (cs : List Char) :
    ∀ (acc : List Char) (escaped : Bool),
      litsNonempty (tokenizeSpecAux acc escaped cs) = true := by
  induction cs with
  | nil =>
      intro acc escaped
      simp only [tokenizeSpecAux, flushFinal]
      by_cases h : (if escaped then acc ++ [escape_char] else acc) = []
      · simp [h, litsNonempty]
      · simp [h, litsNonempty, List.isEmpty_iff]
  | cons c cs ih =>
      intro acc escaped
      cases escaped with
      | true =>
          by_cases h : (char_mapping c).isSome ∨ c = escape_char
          · simpa [tokenizeSpecAux, h] using ih (acc ++ [c]) false
          · simpa [tokenizeSpecAux, h] using ih (acc ++ [escape_char, c]) false
      | false =>
          by_cases hesc : c = escape_char
          · simpa [tokenizeSpecAux, hesc] using ih acc true
          · cases hmap : char_mapping c with
            | some sc =>
                simp only [tokenizeSpecAux, if_neg hesc, hmap]
                by_cases hacc : acc = []
                · simpa [hacc, litsNonempty] using ih [] false
                · have := ih [] false
                  simp [hacc, litsNonempty, List.isEmpty_iff, litsNonempty] at this ⊢
                  exact this
            | none =>
                simpa [tokenizeSpecAux, if_neg hesc, hmap] using ih (acc ++ [c]) false

/-- C8 counterexample: concatenating a `SigmaString` with the bare empty
string — an operation the claim covers — materializes an empty literal
run. -/
theorem addStr_empty_breaks_invariant :
    litsNonempty (addStr (tokenize ['a']) []) = false := by decide

/-- C8 (amended): tokenization never materializes an empty literal run, and
the invariant is preserved by concatenation with another token sequence,
with a bare wildcard token on either side, and with *non-empty* bare text on
either side (appending empty bare text materializes an empty literal
run). -/
theorem literal_runs_nonempty_invariant :
    (∀ s : List Char, litsNonempty (tokenize s) = true) ∧
    (∀ a b, litsNonempty a = true → litsNonempty b = true →
        litsNonempty (addSigma a b) = true) ∧
    (∀ a sc, litsNonempty a = true → litsNonempty (addSpecial a sc) = true) ∧
    (∀ sc a, litsNonempty a = true → litsNonempty (raddSpecial sc a) = true) ∧
    (∀ a t, litsNonempty a = true → t ≠ [] → litsNonempty (addStr a t) = true) ∧
    (∀ t a, litsNonempty a = true → t ≠ [] → litsNonempty (raddStr t a) = true) := by
  refine ⟨?_, ?_, ?_, ?_, ?_, ?_⟩
  · intro s
    rw [tokenize_eq_tokenizeSpec]
    exact litsNonempty_tokenizeSpecAux s [] false
  · intro a b ha hb
    simp only [addSigma, litsNonempty, List.all_append] at *
    simp [ha, hb]
  · intro a sc ha
    simp only [addSpecial, litsNonempty, List.all_append] at *
    simp [ha]
  · intro sc a ha
    simpa [raddSpecial, litsNonempty] using ha
  · intro a t ha ht
    simp only [addStr, litsNonempty, List.all_append] at *
    simp [ha, List.isEmpty_iff, ht]
  · intro t a ha ht
    simp only [raddStr, litsNonempty, List.all_cons] at *
    simp [ha, List.isEmpty_iff, ht]

/-- The input of the numeric normalizer `SigmaNumber.__post_init__`: the
stored `number` is an `int`, a `float` (every finite Python float is a
rational, modelled as `Rat`), or — since the dataclass field is unchecked —
a raw string handed to Python's `int`. -/
inductive NumberInput where
  | ofInt : Int → NumberInput
  | ofFloat : Rat → NumberInput
  | ofStr : List Char → NumberInput

/-- Python's `int(float)`: truncation toward zero, i.e. the numerator
T-divided by the denominator. -/
def pyIntOfFloat (q : Rat) : Int :=
  q.num.tdiv q.den

/-- The value of one decimal digit character. -/
def digitVal (c : Char) : Option Nat :=
  if '0' ≤ c ∧ c ≤ '9' then some (c.toNat - '0'.toNat) else none

/-- Decimal accumulation over a digit list. -/
def parseDigitsAux : List Char → Nat → Option Nat
  | [], acc => some acc
  | c :: cs, acc =>
      match digitVal c with
      | some d => parseDigitsAux cs (acc * 10 + d)
      | none => none

/-- A non-empty all-digit string read as a natural number. -/
def parseDigits : List Char → Option Nat
  | [] => none
  | c :: cs => parseDigitsAux (c :: cs) 0

/-- Python's `int(str)` on the core grammar (an optional sign followed by a
non-empty digit string); any other string raises `ValueError`, modelled as
`none`. -/
def pyIntOfStr : List Char → Option Int
  | '-' :: rest => (parseDigits rest).map (fun n => -(n : Int))
  | '+' :: rest => (parseDigits rest).map (fun n => (n : Int))
  | s => (parseDigits s).map (fun n => (n : Int))

/-- Python's `int(...)` over the three input kinds: the identity on an
integer, truncation toward zero on a float, parsing on a string. -/
def pyIntCoerce : NumberInput → Option Int
  | NumberInput.ofInt n => some n
  | NumberInput.ofFloat q => some (pyIntOfFloat q)
  | NumberInput.ofStr s => pyIntOfStr s

/-- `SigmaNumber.__post_init__`: `self.number = int(self.number)`, with the
`ValueError` of a failed coercion re-raised as
`SigmaValueError("Invalid number")`. -/
def sigmaNumber (v : NumberInput) : Except SigmaError Int :=
  match pyIntCoerce v with
  | some n => Except.ok n
  | none => Except.error (SigmaError.sigmaValueError "Invalid number")

theorem pyIntOfFloat_trunc (q : Rat) :
    pyIntOfFloat q = if 0 ≤ q then ⌊q⌋ else ⌈q⌉ := by
  by_cases h : 0 ≤ q
  · rw [if_pos h, Rat.floor_def, pyIntOfFloat]
    exact Int.tdiv_eq_ediv (Rat.num_nonneg.mpr h) (Int.ofNat_nonneg q.den)
  · rw [if_neg h]
    push_neg at h
    have hceil : ⌈q⌉ = -⌊-q⌋ := by
      conv_lhs => rw [← neg_neg q]
      rw [Int.ceil_neg]
    have hnum : q.num < 0 := Rat.num_neg.mpr h
    have hfloor : ⌊-q⌋ = (-q.num).tdiv q.den := by
      rw [Rat.floor_def, Rat.neg_num, Rat.neg_den]
      exact (Int.tdiv_eq_ediv (by omega) (Int.ofNat_nonneg q.den)).symm
    rw [hceil, hfloor, Int.neg_tdiv, neg_neg, pyIntOfFloat]

/-- C7: numeric normalization truncates every float-like input toward zero
(floor for non-negative inputs, ceiling for negative ones), so
`toNumeric(3.9)` yields `3`, and every input that cannot be interpreted as
numeric — such as the string `"x"` — fails with the ValueError-kind
error. -/
theorem sigmaNumber_truncates_and_rejects :
    (∀ q : Rat, sigmaNumber (NumberInput.ofFloat q) =
        Except.ok (if 0 ≤ q then ⌊q⌋ else ⌈q⌉)) ∧
    sigmaNumber (NumberInput.ofFloat (mkRat 39 10)) = Except.ok 3 ∧
    sigmaNumber (NumberInput.ofFloat (mkRat (-39) 10)) = Except.ok (-3) ∧
    (∀ s, pyIntOfStr s = none →
        sigmaNumber (NumberInput.ofStr s) =
          Except.error (SigmaError.sigmaValueError "Invalid number")) ∧
    sigmaNumber (NumberInput.ofStr ['x']) =
      Except.error (SigmaError.sigmaValueError "Invalid number") := by
  refine ⟨?_, by rfl, by rfl, ?_, by rfl⟩
  · intro q
    simp [sigmaNumber, pyIntCoerce, pyIntOfFloat_trunc]
  · intro s h
    simp [sigmaNumber, pyIntCoerce, h]

/-- A character with no role in the tokenizer's fixed syntax: not a wildcard
designator and not the escape character. -/
def safeChar (c : Char) : Bool :=
  (char_mapping c).isNone && !(c = escape_char : Bool)

/-- Canonical form of a token sequence as the tokenizer produces it: every
literal run non-empty and no two adjacent literal runs. -/
def canonical : List SigmaElem → Bool
  | [] => true
  | [SigmaElem.lit s] => !s.isEmpty
  | SigmaElem.lit _ :: SigmaElem.lit _ :: _ => false
  | SigmaElem.lit s :: SigmaElem.special sc :: rest =>
      !s.isEmpty && canonical (SigmaElem.special sc :: rest)
  | SigmaElem.special _ :: rest => canonical rest

/-- Every literal character of the sequence is `safeChar`. -/
def safeLits (ws : List SigmaElem) : Bool :=
  ws.all (fun e => match e with
    | SigmaElem.lit s => s.all safeChar
    | SigmaElem.special _ => true)

/-- The hypothesis of the round-trip claim as stated: no literal character
requires escaping under the configuration (i.e. none belongs to
`escaped_chars`). -/
def noEscapedLitChars (ws : List SigmaElem) (cfg : ConvertCfg) : Bool :=
  ws.all (fun e => match e with
    | SigmaElem.lit s => s.all (fun c => !((escapedChars cfg).contains c))
    | SigmaElem.special _ => true)

/-- The source designator for a wildcard kind (`special_char_mapping`). -/
def designator : SpecialChars → Char
  | SpecialChars.wildcard_multi => '*'
  | SpecialChars.wildcard_single => '?'

/-- The string `__str__`/default `convert` produce for a sequence whose
literal characters need no escaping: literal runs verbatim, wildcards as
their designators. -/
def render (ws : List SigmaElem) : List Char :=
  ws.flatMap (fun e => match e with
    | SigmaElem.lit s => s
    | SigmaElem.special sc => [designator sc])

theorem specConvertAux_default_safe (atoms : List SAtom) :
    (atoms.all (fun a => match a with
      | SAtom.ch c => safeChar c
      | SAtom.special _ => true)) = true →
      specConvertAux defaultCfg atoms =
        Except.ok (atoms.flatMap (fun a => match a with
          | SAtom.ch c => [c]
          | SAtom.special sc => [designator sc])) := by
  induction atoms with
  | nil => intro _; rfl
  | cons a rest ih =>
      intro h
      rw [List.all_cons] at h
      obtain ⟨ha, hrest⟩ := Bool.and_eq_true_iff.mp h
      cases a with
      | ch c =>
          have hmap : char_mapping c = none := by
            simp [safeChar, Option.isNone_iff_eq_none] at ha
            exact ha.1
          have hstar : c ≠ '*' := by
            intro hc; rw [hc] at hmap; simp [char_mapping] at hmap
          have hq : c ≠ '?' := by
            intro hc; rw [hc] at hmap; simp [char_mapping] at hmap
          have hmem : c ∉ escapedChars defaultCfg := by
            simp [escapedChars, defaultCfg, hstar, hq]
          have hfilter : c ∉ defaultCfg.filter_chars := by
            simp [defaultCfg]
          simp only [specConvertAux, emitAtom, if_neg hfilter, if_neg hmem]
          rw [ih hrest]
          simp [Except.bind, Except.map, List.flatMap_cons]
      | special sc =>
          have hrepr : wildcardRepr defaultCfg sc = some [designator sc] := by
            cases sc <;> rfl
          simp only [specConvertAux, emitAtom, hrepr]
          rw [ih hrest]
          simp [Except.bind, Except.map, List.flatMap_cons]

theorem atomicUnits_flatMap_render (ws : List SigmaElem) :
    (atomicUnits ws).flatMap (fun a => match a with
      | SAtom.ch c => [c]
      | SAtom.special sc => [designator sc]) = render ws := by
  induction ws with
  | nil => rfl
  | cons e rest ih =>
      cases e with
      | lit s =>
          simp only [atomicUnits, render, List.flatMap_cons, List.flatMap_append] at *
          rw [ih]
          congr 1
          induction s with
          | nil => rfl
          | cons c cs ihs => simp [List.flatMap_cons, ihs]
      | special sc =>
          simp only [atomicUnits, render, List.flatMap_cons, List.flatMap_append] at *
          simp [ih]

theorem safeLits_atoms (ws : List SigmaElem) :
    safeLits ws = true →
      (atomicUnits ws).all (fun a => match a with
        | SAtom.ch c => safeChar c
        | SAtom.special _ => true) = true := by
  induction ws with
  | nil => intro _; rfl
  | cons e rest ih =>
      intro h
      rw [safeLits, List.all_cons] at h
      obtain ⟨he, hrest⟩ := Bool.and_eq_true_iff.mp h
      cases e with
      | lit s =>
          simp only [atomicUnits, List.flatMap_cons, List.all_append]
          refine Bool.and_eq_true_iff.mpr ⟨?_, ih hrest⟩
          simpa [List.all_map, Function.comp] using he
      | special sc =>
          simp only [atomicUnits, List.flatMap_cons, List.all_append]
          exact Bool.and_eq_true_iff.mpr ⟨rfl, ih hrest⟩

theorem convert_default_render (ws : List SigmaElem) :
    safeLits ws = true → convert ws defaultCfg = Except.ok (render ws) := by
  intro h
  rw [convert_eq_specConvert]
  unfold specConvert
  rw [specConvertAux_default_safe (atomicUnits ws) (safeLits_atoms ws h)]
  rw [atomicUnits_flatMap_render]

theorem tokenizeSpecAux_absorb (s : List Char) :
    ∀ (acc rest : List Char), s.all safeChar = true →
      tokenizeSpecAux acc false (s ++ rest) = tokenizeSpecAux (acc ++ s) false rest := by
  induction s with
  | nil => intro acc rest _; simp
  | cons c s' ih =>
      intro acc rest h
      rw [List.all_cons] at h
      obtain ⟨hc, hs'⟩ := Bool.and_eq_true_iff.mp h
      have hmap : char_mapping c = none := by
        simp [safeChar, Option.isNone_iff_eq_none] at hc
        exact hc.1
      have hesc : c ≠ escape_char := by
        simp [safeChar] at hc
        exact hc.2
      simp only [List.cons_append, tokenizeSpecAux, if_neg hesc, hmap]
      have h1 := ih (acc ++ [c]) rest hs'
      simpa [List.append_assoc] using h1

theorem tokenizeSpecAux_designator (sc : SpecialChars) (acc rest : List Char) :
    tokenizeSpecAux acc false (designator sc :: rest) =
      (if acc = [] then [] else [SigmaElem.lit acc]) ++
        SigmaElem.special sc :: tokenizeSpecAux [] false rest := by
  cases sc <;> rfl

theorem tokenizeSpec_render (ws : List SigmaElem) :
    canonical ws = true → safeLits ws = true →
      tokenizeSpecAux [] false (render ws) = ws := by
  induction ws with
  | nil => intro _ _; rfl
  | cons e rest ih =>
      intro hc hs
      have hs' : safeLits rest = true := by
        rw [safeLits, List.all_cons] at hs
        exact (Bool.and_eq_true_iff.mp hs).2
      cases e with
      | special sc =>
          have hc' : canonical rest = true := by simpa [canonical] using hc
          have hrender : render (SigmaElem.special sc :: rest) =
              designator sc :: render rest := by
            simp [render, List.flatMap_cons]
          rw [hrender, tokenizeSpecAux_designator sc [] (render rest)]
          simp [ih hc' hs']
      | lit s =>
          have hsafe : s.all safeChar = true := by
            rw [safeLits, List.all_cons] at hs
            exact (Bool.and_eq_true_iff.mp hs).1
          have hrender : render (SigmaElem.lit s :: rest) = s ++ render rest := by
            simp [render, List.flatMap_cons]
          rw [hrender, tokenizeSpecAux_absorb s [] (render rest) hsafe]
          simp only [List.nil_append]
          cases rest with
          | nil =>
              have hsne : s ≠ [] := by
                simpa [canonical, List.isEmpty_iff] using hc
              simp [render, tokenizeSpecAux, flushFinal, hsne]
          | cons e2 rest2 =>
              cases e2 with
              | lit s2 =>
                  simp [canonical] at hc
              | special sc =>
                  rw [canonical] at hc
                  obtain ⟨hse, hc2⟩ := Bool.and_eq_true_iff.mp hc
                  have hsne : s ≠ [] := by
                    simpa [List.isEmpty_iff] using hse
                  have hrest := ih hc2 hs'
                  have hrender2 : render (SigmaElem.special sc :: rest2) =
                      designator sc :: render rest2 := by
                    simp [render, List.flatMap_cons]
                  rw [hrender2] at hrest ⊢
                  rw [tokenizeSpecAux_designator sc [] _] at hrest
                  simp only [if_pos rfl, List.nil_append] at hrest
                  have htail := ((List.cons.injEq _ _ _ _).mp hrest).2
                  rw [tokenizeSpecAux_designator sc s _, if_neg hsne]
                  simp [htail]

/-- C2 counterexample: the wildcarded string `[Lit "a\", Wildcard(Multi)]`
(obtainable as `SigmaString("a\\\\") + SpecialChars.WILDCARD_MULTI`) has no
literal character requiring escaping under the default configuration —
`escaped_chars` is `{'*', '?'}` — yet default conversion yields the string
`a\*`, which tokenizes to `[Lit "a*"]`, not to the original sequence: the
backslash literal swallows the following wildcard. -/
theorem roundtrip_claim_counterexample :
    noEscapedLitChars [SigmaElem.lit ['a', '\\'],
        SigmaElem.special SpecialChars.wildcard_multi] defaultCfg = true ∧
    canonical [SigmaElem.lit ['a', '\\'],
        SigmaElem.special SpecialChars.wildcard_multi] = true ∧
    convert [SigmaElem.lit ['a', '\\'],
        SigmaElem.special SpecialChars.wildcard_multi] defaultCfg =
      Except.ok ['a', '\\', '*'] ∧
    tokenize ['a', '\\', '*'] = [SigmaElem.lit ['a', '*']] ∧
    decide ([SigmaElem.lit ['a', '*']] =
      [SigmaElem.lit ['a', '\\'], SigmaElem.special SpecialChars.wildcard_multi]) =
      false := by
  refine ⟨by decide, by decide, by rfl, by decide, by decide⟩

/-- C2 (amended): for every wildcarded string in canonical form (non-empty
literal runs, no adjacent literal runs) whose literal characters are neither
wildcard designators (the characters requiring escaping under the default
configuration) nor the escape character, converting under the default
configuration — the inverse of the tokenizer's fixed syntax — and
re-tokenizing reproduces the token sequence exactly. -/
theorem roundtrip_default_config :
    ∀ ws : List SigmaElem, canonical ws = true → safeLits ws = true →
      (convert ws defaultCfg).map tokenize = Except.ok ws := by
  intro ws hc hs
  rw [convert_default_render ws hs]
  simp only [Except.map]
  rw [tokenize_eq_tokenizeSpec]
  rw [show tokenizeSpec (render ws) = tokenizeSpecAux [] false (render ws) from rfl]
  rw [tokenizeSpec_render ws hc hs]

/-- Closed instance of the round-trip theorem at a concrete canonical
wildcarded string. -/
theorem roundtrip_default_config_witness :
    canonical [SigmaElem.lit ['a'], SigmaElem.special SpecialChars.wildcard_multi,
      SigmaElem.lit ['b'], SigmaElem.special SpecialChars.wildcard_single] = true ∧
    safeLits [SigmaElem.lit ['a'], SigmaElem.special SpecialChars.wildcard_multi,
      SigmaElem.lit ['b'], SigmaElem.special SpecialChars.wildcard_single] = true ∧
    (convert [SigmaElem.lit ['a'], SigmaElem.special SpecialChars.wildcard_multi,
      SigmaElem.lit ['b'], SigmaElem.special SpecialChars.wildcard_single]
        defaultCfg).map tokenize =
      Except.ok [SigmaElem.lit ['a'], SigmaElem.special SpecialChars.wildcard_multi,
        SigmaElem.lit ['b'], SigmaElem.special SpecialChars.wildcard_single] :=
  ⟨by decide, by decide,
    roundtrip_default_config _ (by decide) (by decide)⟩

/-- The first alternative of the alternation that matches at the current
position (Python's `re` tries the alternatives of `a|b|...` in order; every
alternative is `re.escape`d, hence a literal string). -/
def matchAt (alts : List (List Char)) (s : List Char) : Option (List Char) :=
  alts.find? (fun a => a.isPrefixOf s)

/-- The match start positions of `re.finditer` for a literal alternation:
left-to-right scan yielding non-overlapping leftmost matches, resuming after
each match (one position further for a zero-width match).  The fuel argument
only bounds the recursion and is never exhausted when it exceeds the
remaining length. -/
def scanMF (alts : List (List Char)) : Nat → List Char → Nat → List Nat
  | 0, _, _ => []
  | _ + 1, [], i => if (matchAt alts []).isSome then [i] else []
  | fuel + 1, c :: cs, i =>
      match matchAt alts (c :: cs) with
      | some [] => i :: scanMF alts fuel cs (i + 1)
      | some (_ :: m1) => i :: scanMF alts fuel (cs.drop m1.length) (i + m1.length + 1)
      | none => scanMF alts fuel cs (i + 1)

/-- All match start positions in `s`, scanning from position 0. -/
def finditerStarts (alts : List (List Char)) (s : List Char) : List Nat :=
  scanMF alts (s.length + 1) s 0

/-- The chunk list `[self.regexp[i:j] for i,j in ranges]` for the tail of the
ranges `zip([None,*pos], [*pos,None])`: chunks between consecutive match
positions, then the tail after the last one. -/
def chunksAux (s : List Char) : Nat → List Nat → List (List Char)
  | i, [] => [s.drop i]
  | i, j :: rest => (s.take j).drop i :: chunksAux s j rest

/-- The full chunk list of `SigmaRegularExpression.escape`: the text before
the first match, between consecutive matches, and after the last. -/
def escapeChunks (s : List Char) : List Nat → List (List Char)
  | [] => [s]
  | p :: rest => s.take p :: chunksAux s p rest

/-- Python's `str.join`: the separator inserted between every pair of
consecutive chunks. -/
def pyJoin (sep : List Char) : List (List Char) → List Char
  | [] => []
  | [x] => x
  | x :: y :: rest => x ++ sep ++ pyJoin sep (y :: rest)

/-- `SigmaRegularExpression.escape`: positions of all non-overlapping
leftmost matches of the alternation of the escaped delimiters and the escape
character itself, the pattern split into chunks at those positions, and the
chunks rejoined with the escape character. -/
def escapeRegex (regexp : List Char) (escaped : List (List Char)) (eC : List Char) :
    List Char :=
  pyJoin eC (escapeChunks regexp (finditerStarts (escaped ++ [eC]) regexp))

/-- Whether an occurrence of a (non-empty) delimiter or of the escape
character starts at the current position. -/
def occursHere (delims : List (List Char)) (eC : List Char) (s : List Char) : Bool :=
  (delims ++ [eC]).any (fun d => !d.isEmpty && d.isPrefixOf s)

/-- The claim's reading of `escape`: exactly one escape character inserted
immediately before every occurrence of a listed delimiter or of the escape
character itself, everything else unchanged. -/
def specEscapeClaim (delims : List (List Char)) (eC : List Char) : List Char → List Char
  | [] => []
  | c :: cs =>
      (if occursHere delims eC (c :: cs) then eC else []) ++
        c :: specEscapeClaim delims eC cs

/-- Match positions when every alternative is one character: exactly the
positions whose character starts an alternative. -/
def idxPositions (alts : List (List Char)) : List Char → Nat → List Nat
  | [], _ => []
  | c :: cs, i =>
      if alts.any (fun d => d.isPrefixOf (c :: cs)) then
        i :: idxPositions alts cs (i + 1)
      else idxPositions alts cs (i + 1)

/-- A character consed onto the first chunk. -/
def consHead (c : Char) : List (List Char) → List (List Char)
  | [] => [[c]]
  | x :: xs => (c :: x) :: xs

theorem scanMF_single (alts : List (List Char)) (h1 : ∀ d ∈ alts, d.length = 1) :
    ∀ (s : List Char) (i : Nat), scanMF alts (s.length + 1) s i = idxPositions alts s i := by
  intro s
  induction s with
  | nil =>
      intro i
      have hnone : matchAt alts [] = none := by
        rw [matchAt, List.find?_eq_none]
        intro a ha
        obtain ⟨x, hx⟩ := List.length_eq_one.mp (h1 a ha)
        simp [hx, List.isPrefixOf]
      simp [scanMF, hnone, idxPositions]
  | cons c cs ih =>
      intro i
      show scanMF alts (cs.length + 1 + 1) (c :: cs) i = _
      cases hm : matchAt alts (c :: cs) with
      | some m =>
          have hm2 : List.find? (fun a => a.isPrefixOf (c :: cs)) alts = some m := hm
          have hmem := List.mem_of_find?_eq_some hm2
          have hpre : m.isPrefixOf (c :: cs) = true := by
            simpa using List.find?_some hm2
          obtain ⟨x, hx⟩ := List.length_eq_one.mp (h1 m hmem)
          have hxc : x = c := by
            rw [hx] at hpre
            simpa [List.isPrefixOf] using hpre
          rw [hxc] at hx
          subst hx
          have hany : alts.any (fun d => d.isPrefixOf (c :: cs)) = true := by
            rw [List.any_eq_true]
            exact ⟨[c], hmem, hpre⟩
          simp only [scanMF, hm, List.length_nil, List.drop_zero, Nat.add_zero]
          rw [ih (i + 1)]
          conv_rhs => rw [idxPositions]
          rw [if_pos hany]
      | none =>
          have hnot : ∀ a ∈ alts, ¬(a.isPrefixOf (c :: cs) = true) := by
            rw [matchAt, List.find?_eq_none] at hm
            exact hm
          have hany : alts.any (fun d => d.isPrefixOf (c :: cs)) = false := by
            rw [List.any_eq_false]
            exact hnot
          simp only [scanMF, hm]
          rw [ih (i + 1)]
          conv_rhs => rw [idxPositions]
          rw [hany]
          simp

theorem idxPositions_shift (alts : List (List Char)) (s : List Char) :
    ∀ j i, idxPositions alts s (j + i) = (idxPositions alts s j).map (· + i) := by
  induction s with
  | nil => intro j i; simp [idxPositions]
  | cons c cs ih =>
      intro j i
      by_cases h : alts.any (fun d => d.isPrefixOf (c :: cs)) = true
      · simp only [idxPositions, h, if_pos, List.map_cons]
        rw [show j + i + 1 = (j + 1) + i from by omega, ih (j + 1) i]
      · rw [Bool.not_eq_true] at h
        simp only [idxPositions, h, Bool.false_eq_true, if_false]
        rw [show j + i + 1 = (j + 1) + i from by omega, ih (j + 1) i]

theorem chunksAux_shift (cs : List Char) (c : Char) :
    ∀ (rest : List Nat) (i : Nat),
      chunksAux (c :: cs) (i + 1) (rest.map (· + 1)) = chunksAux cs i rest := by
  intro rest
  induction rest with
  | nil => intro i; simp [chunksAux, List.drop_succ_cons]
  | cons j r ih =>
      intro i
      simp only [List.map_cons, chunksAux, List.take_succ_cons, List.drop_succ_cons]
      rw [ih j]

theorem escapeChunks_shift (cs : List Char) (c : Char) (pos : List Nat) :
    escapeChunks (c :: cs) (pos.map (· + 1)) = consHead c (escapeChunks cs pos) := by
  cases pos with
  | nil => simp [escapeChunks, consHead]
  | cons p rest =>
      simp only [List.map_cons, escapeChunks, List.take_succ_cons, consHead]
      rw [chunksAux_shift]

theorem escapeChunks_zero (cs : List Char) (c : Char) (pos : List Nat) :
    escapeChunks (c :: cs) (0 :: pos.map (· + 1)) =
      [] :: consHead c (escapeChunks cs pos) := by
  simp only [escapeChunks, List.take_zero]
  congr 1
  cases pos with
  | nil => simp [chunksAux, escapeChunks, consHead]
  | cons q rest =>
      simp only [List.map_cons, chunksAux, List.take_succ_cons, List.drop_zero,
        escapeChunks, consHead]
      rw [chunksAux_shift]

theorem escapeChunks_ne_nil (s : List Char) (pos : List Nat) :
    escapeChunks s pos ≠ [] := by
  cases pos <;> simp [escapeChunks]

theorem consHead_ne_nil (c : Char) (l : List (List Char)) : consHead c l ≠ [] := by
  cases l <;> simp [consHead]

theorem pyJoin_consHead (eC : List Char) (c : Char) (l : List (List Char)) (h : l ≠ []) :
    pyJoin eC (consHead c l) = c :: pyJoin eC l := by
  cases l with
  | nil => exact absurd rfl h
  | cons x xs =>
      cases xs with
      | nil => simp [consHead, pyJoin]
      | cons y ys => simp [consHead, pyJoin]

theorem pyJoin_nil_cons (eC : List Char) (l : List (List Char)) (h : l ≠ []) :
    pyJoin eC ([] :: l) = eC ++ pyJoin eC l := by
  cases l with
  | nil => exact absurd rfl h
  | cons y ys => simp [pyJoin]

theorem any_nonempty_pre (s : List Char) :
    ∀ l : List (List Char), (∀ d ∈ l, d ≠ []) →
      (l.any (fun d => !d.isEmpty && d.isPrefixOf s)) =
        l.any (fun d => d.isPrefixOf s) := by
  intro l
  induction l with
  | nil => intro _; rfl
  | cons d ds ih =>
      intro h
      have hd : d ≠ [] := h d (List.mem_cons_self d ds)
      have hds := ih (fun x hx => h x (List.mem_cons_of_mem d hx))
      simp only [List.any_cons, hds]
      congr 1
      simp [List.isEmpty_iff, hd]

theorem occursHere_of_single (delims : List (List Char)) (eC : List Char) (s : List Char)
    (h1 : ∀ d ∈ delims ++ [eC], d.length = 1) :
    occursHere delims eC s = (delims ++ [eC]).any (fun d => d.isPrefixOf s) := by
  rw [occursHere, any_nonempty_pre]
  intro d hd
  obtain ⟨x, hx⟩ := List.length_eq_one.mp (h1 d hd)
  simp [hx]

theorem escape_main (delims : List (List Char)) (eC : List Char)
    (h1 : ∀ d ∈ delims ++ [eC], d.length = 1) :
    ∀ s : List Char,
      pyJoin eC (escapeChunks s (idxPositions (delims ++ [eC]) s 0)) =
        specEscapeClaim delims eC s := by
  intro s
  induction s with
  | nil => rfl
  | cons c cs ih =>
      have hshift : idxPositions (delims ++ [eC]) cs 1 =
          (idxPositions (delims ++ [eC]) cs 0).map (· + 1) := by
        simpa using idxPositions_shift (delims ++ [eC]) cs 0 1
      have hocc := occursHere_of_single delims eC (c :: cs) h1
      by_cases h : (delims ++ [eC]).any (fun d => d.isPrefixOf (c :: cs)) = true
      · simp only [idxPositions, h, if_pos]
        rw [hshift, escapeChunks_zero]
        rw [pyJoin_nil_cons _ _ (consHead_ne_nil _ _)]
        rw [pyJoin_consHead _ _ _ (escapeChunks_ne_nil _ _)]
        rw [ih]
        conv_rhs => rw [specEscapeClaim]
        rw [hocc, h]
        simp
      · rw [Bool.not_eq_true] at h
        simp only [idxPositions, h, Bool.false_eq_true, if_false]
        rw [hshift, escapeChunks_shift]
        rw [pyJoin_consHead _ _ _ (escapeChunks_ne_nil _ _)]
        rw [ih]
        conv_rhs => rw [specEscapeClaim]
        rw [hocc, h]
        simp

/-- C3 counterexample: on pattern `aaa` with the single delimiter `aa` (and
escape character `\`), the scan finds only the non-overlapping leftmost
match at position 0 and returns `\aaa`, while inserting one escape before
*every* occurrence of `aa` (positions 0 and 1) would give `\a\aa`. -/
theorem escape_claim_counterexample :
    escapeRegex ['a', 'a', 'a'] [['a', 'a']] ['\\'] = ['\\', 'a', 'a', 'a'] ∧
    specEscapeClaim [['a', 'a']] ['\\'] ['a', 'a', 'a'] =
      ['\\', 'a', '\\', 'a', 'a'] ∧
    decide (escapeRegex ['a', 'a', 'a'] [['a', 'a']] ['\\'] =
      specEscapeClaim [['a', 'a']] ['\\'] ['a', 'a', 'a']) = false := by
  refine ⟨by decide, by decide, by decide⟩

/-- C3 (amended): when every delimiter and the escape character are single
characters — as in the claim's own example — `escape` returns the stored
pattern with exactly one escape character inserted immediately before every
occurrence of a listed delimiter or of the escape character itself and every
other character unchanged; with multi-character delimiters only the
non-overlapping leftmost matches are escaped. -/
theorem escape_single_char_delimiters :
    ∀ (regexp : List Char) (delims : List (List Char)) (eC : List Char),
      (∀ d ∈ delims, d.length = 1) → eC.length = 1 →
      escapeRegex regexp delims eC = specEscapeClaim delims eC regexp := by
  intro regexp delims eC hd he
  have h1 : ∀ d ∈ delims ++ [eC], d.length = 1 := by
    intro d hmem
    rcases List.mem_append.mp hmem with h | h
    · exact hd d h
    · rw [List.mem_singleton] at h
      rw [h]
      exact he
  rw [escapeRegex, finditerStarts, scanMF_single (delims ++ [eC]) h1 regexp 0]
  exact escape_main delims eC h1 regexp

/-- Closed instance: the claim's own example, pattern `a.b\c` with
delimiters `.` and `\` and escape character `\`, through the amended
theorem. -/
theorem escape_single_char_delimiters_witness :
    (∀ d ∈ [['.'], ['\\']], List.length d = 1) ∧
    List.length ['\\'] = 1 ∧
    escapeRegex ['a', '.', 'b', '\\', 'c'] [['.'], ['\\']] ['\\'] =
      specEscapeClaim [['.'], ['\\']] ['\\'] ['a', '.', 'b', '\\', 'c'] ∧
    escapeRegex ['a', '.', 'b', '\\', 'c'] [['.'], ['\\']] ['\\'] =
      ['a', '\\', '.', 'b', '\\', '\\', 'c'] :=
  ⟨by decide, by decide,
    escape_single_char_delimiters ['a', '.', 'b', '\\', 'c'] [['.'], ['\\']] ['\\']
      (by decide) (by decide), by decide⟩
